import Mathlib

/-!
Verification of the HubertFA repository (files `networks/hubert/model.py` and
`networks/utils/train_callbacks.py`) via a shallow embedding in Lean 4.

Conventions of the embedding:
* PyTorch float scalars become `ℚ`; tensors become nested `List`s.
* Randomness is made explicit: `random.random()` becomes a parameter
  `u : ℚ` with `0 ≤ u < 1`, and the `torch.multinomial` draw of distinct
  span start offsets becomes a parameter `starts : ℕ → ℕ → ℕ`
  (batch row → sample index → offset), constrained by hypotheses that
  mirror what the sampler guarantees (distinctness, range).
* Fallible code returns `Except String`.
-/

namespace HubertFA

/-! ### `_compute_mask` (networks/hubert/model.py, lines 175-227) -/

/-- `int(mask_prob * sequence_length / mask_length + random.random())`:
the stochastic rounding step of `_compute_mask`.  Python `int` truncates
toward zero; for the nonnegative values arising here this is the floor. -/
def num_masked_spans_raw (mask_prob u : ℚ) (sequence_length mask_length : ℕ) : ℕ :=
  (Int.floor (mask_prob * sequence_length / mask_length + u)).toNat

/-- The number of masked spans computed by `_compute_mask`:
`num = int(mask_prob * seq / len + u)`, then `num = max(num, min_masks)`,
then if `num * mask_length > sequence_length` recompute `num` as
`sequence_length // mask_length`. -/
def num_masked_spans (mask_prob u : ℚ)
    (sequence_length mask_length min_masks : ℕ) : ℕ :=
  let n := max (num_masked_spans_raw mask_prob u sequence_length mask_length) min_masks
  if sequence_length < n * mask_length then sequence_length / mask_length else n

/-- One row of the SpecAugment mask: position `j < sequence_length` is `true`
exactly when some sampled span `[starts i, starts i + mask_length)` with
`i < n` covers `j`.  This is the `scatter` of the expanded
`mask_indices + offsets` in `_compute_mask`. -/
def mask_row (starts : ℕ → ℕ) (n mask_length sequence_length : ℕ) : List Bool :=
  (List.range sequence_length).map (fun j =>
    (List.range n).any (fun i =>
      decide (starts i ≤ j) && decide (j < starts i + mask_length)))

/-- Shallow embedding of `_compute_mask`.  The two `ValueError`s of the
source become `Except.error`, and so do the two `TORCH_CHECK` failures of
`torch.multinomial(uniform_dist, num_masked_spans)`: it raises
`RuntimeError` when asked for `n_sample <= 0` samples (reachable here
with `min_masks = 0` whenever `int(mask_prob * seq / len + u) = 0`) and
when asked, without replacement, for more samples than the
`sequence_length - (mask_length - 1)` categories of `uniform_dist` (shown
unreachable below).  The random draws are the parameters `u` (the uniform
draw added before truncation) and `starts` (the multinomial sample of
span start offsets, row by row). -/
def _compute_mask (batch_size sequence_length : ℕ) (mask_prob : ℚ)
    (mask_length : ℕ) (min_masks : ℕ) (u : ℚ) (starts : ℕ → ℕ → ℕ) :
    Except String (List (List Bool)) :=
  if mask_length < 1 then
    Except.error "`mask_length` has to be bigger than 0."
  else if sequence_length < mask_length then
    Except.error "`mask_length` has to be smaller than `sequence_length`"
  else if num_masked_spans mask_prob u sequence_length mask_length min_masks = 0 then
    Except.error "cannot sample n_sample <= 0 samples"
  else if sequence_length - (mask_length - 1) <
      num_masked_spans mask_prob u sequence_length mask_length min_masks then
    Except.error "cannot sample n_sample > prob_dist.size(-1) samples without replacement"
  else
    Except.ok ((List.range batch_size).map (fun b =>
      mask_row (starts b)
        (num_masked_spans mask_prob u sequence_length mask_length min_masks)
        mask_length sequence_length))

/-- A span of length `L` starting at `s` is fully masked in `row`. -/
def spanFullyMasked (row : List Bool) (s L : ℕ) : Prop :=
  ∀ j, s ≤ j → j < s + L → row.getD j false = true

/-- Spec-side description of the span count, written from the spec's
words for the refinement claim C2: `num_spans = max(min_masks,
int(mask_prob * sequence_length / mask_length + u))`, recomputed as
`sequence_length // mask_length` when `num_spans * mask_length >
sequence_length`. -/
def num_masked_spans_spec (mask_prob u : ℚ)
    (sequence_length mask_length min_masks : ℕ) : ℕ :=
  let n := max min_masks (Int.floor (mask_prob * sequence_length / mask_length + u)).toNat
  if n * mask_length > sequence_length then sequence_length / mask_length else n

/-- Spec-side description of a mask row for claim C2: position `j` is
masked exactly when some sampled span covers it (spans expanded from the
starts and ORed together, overlaps collapsing). -/
def mask_row_spec (starts : ℕ → ℕ) (n mask_length sequence_length : ℕ) : List Bool :=
  (List.range sequence_length).map (fun j =>
    decide (∃ i, i < n ∧ starts i ≤ j ∧ j < starts i + mask_length))

/-! ### `TransformerEncoder.forward` (networks/hubert/model.py, lines 152-172) -/

/-- Shallow embedding of `TransformerEncoder.forward`: the stack of
encoder layers becomes a list of functions on the hidden state, and the
Python slice `self.layers[:output_layer]` keeps the first `output_layer`
layers — all of them when `output_layer` is `None`. -/
def TransformerEncoder.forward {α : Type*} (layers : List (α → α))
    (output_layer : Option ℕ) (src : α) : α :=
  match output_layer with
  | some n => (layers.take n).foldl (fun acc f => f acc) src
  | none => layers.foldl (fun acc f => f acc) src

/-- The trace of intermediate states of a full run through the stack:
`runTrace layers src` lists `src` followed by the state after each
successive layer. -/
def runTrace {α : Type*} (layers : List (α → α)) (src : α) : List α :=
  match layers with
  | [] => [src]
  | f :: rest => src :: runTrace rest (f src)

/-! ### `VlabelerEvaluateCallback.on_validation_start` metric aggregation
(networks/utils/train_callbacks.py, lines 106-136) -/

/-- The per-cycle metric scalars computed by the evaluation callback,
keyed as in the `metrics` dictionary of `on_validation_start`. -/
structure EvalResult where
  boundaryEditRatio : ℚ
  boundaryEditRatioWeighted : ℚ
  vlabelerEditRatio10_20ms : ℚ
  vlabelerEditRatio20_50ms : ℚ
  vlabelerEditRatio50_100ms : ℚ
  vlabelerEditRatio100_5000ms : ℚ

/-- `vlabeler_loss = m10_20 * 0.1 + m20_50 * 0.2 + m50_100 * 0.3 +
m100_5000 * 0.4` (train_callbacks.py, lines 133-134). -/
def vlabeler_loss (r : EvalResult) : ℚ :=
  r.vlabelerEditRatio10_20ms * 0.1 + r.vlabelerEditRatio20_50ms * 0.2 +
    r.vlabelerEditRatio50_100ms * 0.3 + r.vlabelerEditRatio100_5000ms * 0.4

/-- `total = vlabeler_loss * 0.5 + BoundaryEditRatioWeighted * 0.5`
(train_callbacks.py, line 136). -/
def total (r : EvalResult) : ℚ :=
  vlabeler_loss r * 0.5 + r.boundaryEditRatioWeighted * 0.5

/-- The metric-computation loop of `on_validation_start`
(train_callbacks.py, lines 117-128): for each exported prediction file,
collect the reference files matching its name
(`self.evaluate_folder.rglob(...)`); when none match, `continue` skips
the file, otherwise the first match is used and every metric accumulator
is updated.  The accumulator state is abstracted to `α` and the combined
`metric.update` calls to `update`. -/
def metricPhase {α : Type*} (refs : String → List String)
    (update : α → String → String → α) (init : α) (preds : List String) : α :=
  preds.foldl (fun acc p =>
    match refs p with
    | [] => acc
    | t :: _ => update acc p t) init


/-! ### `Hubert.mask` / `Hubert.encode` (networks/hubert/model.py, lines 38-54) -/

/-- `x[mask] = self.masked_spec_embed` on one time axis: replace the
feature vector of every masked position with the learned mask embedding
(one vector, broadcast over the masked positions). -/
def applyMaskRow (embed : List ℚ) (mrow : List Bool) (xrow : List (List ℚ)) :
    List (List ℚ) :=
  List.zipWith (fun mb v => if mb then embed else v) mrow xrow

/-- Shallow embedding of `Hubert.mask`: in training mode with `self._mask`
set, overwrite the masked positions with the mask embedding and return the
boolean mask; otherwise return the features untouched and `none`.  The
already-drawn boolean mask `m` stands for the `_compute_mask` result. -/
def Hubert.mask (training maskFlag : Bool) (embed : List ℚ)
    (m : List (List Bool)) (x : List (List (List ℚ))) :
    List (List (List ℚ)) × Option (List (List Bool)) :=
  if training && maskFlag then (List.zipWith (applyMaskRow embed) m x, some m)
  else (x, none)

/-- Shallow embedding of `Hubert.encode` around the mask step: the feature
extractor and projection become `frontend`, and everything after the mask
(positional embedding, layer norm, dropout, transformer) becomes
`backend`; the pair returned is `(hidden_states, mask_or_none)`. -/
def Hubert.encode {α β : Type*} (frontend : α → List (List (List ℚ)))
    (backend : List (List (List ℚ)) → β) (training maskFlag : Bool)
    (embed : List ℚ) (m : List (List Bool)) (wav : α) :
    β × Option (List (List Bool)) :=
  let feats := frontend wav
  let step := Hubert.mask training maskFlag embed m feats
  (backend step.1, step.2)

/-! ### `HubertSoft.units` / `HubertDiscrete.units`
(networks/hubert/model.py, lines 70-92) -/

/-- `F.pad(wav, ((400 - 320) // 2, (400 - 320) // 2))`: symmetric
constant (zero) padding of the waveform. -/
def padWav (p : ℕ) (wav : List ℚ) : List ℚ :=
  List.replicate p 0 ++ wav ++ List.replicate p 0

/-- The padding amount `(400 - 320) // 2` used by both unit extractors. -/
def padAmount : ℕ := (400 - 320) / 2

/-- Squared Euclidean distance between a frame vector and a centroid.
Minimizing it gives the same assignment as minimizing the Euclidean
distance, the square root being monotone. -/
def sqDist (v c : List ℚ) : ℚ :=
  (List.zipWith (fun a b => (a - b) ^ 2) v c).sum

/-- Index of the first minimum of a list of distances (`0` on the empty
list); this is the deterministic argmin that `KMeans.predict` performs. -/
def argmin_idx : List ℚ → ℕ
  | [] => 0
  | [_] => 0
  | x :: y :: xs =>
    if (y :: xs).getD (argmin_idx (y :: xs)) 0 < x then argmin_idx (y :: xs) + 1 else 0

/-- `KMeans.predict` on a single frame: the index of the nearest centroid. -/
def kmeans_predict_one (centers : List (List ℚ)) (v : List ℚ) : ℕ :=
  argmin_idx (centers.map (sqDist v))

/-- Shallow embedding of `HubertSoft.units`: pad the waveform by
`padAmount` on each side, encode through all transformer layers
(`encodeAt none` stands for `self.encode(wav)`), and project each frame
(`self.proj`, 768 → 256 dimensions). -/
def HubertSoft.units (encodeAt : Option ℕ → List ℚ → List (List ℚ))
    (proj : List ℚ → List ℚ) (wav : List ℚ) : List (List ℚ) :=
  (encodeAt none (padWav padAmount wav)).map proj

/-- Shallow embedding of `HubertDiscrete.units`: pad the waveform the same
way, encode stopping at layer 7 (`self.encode(wav, layer=7)`), and assign
each frame the index of its nearest centroid in the fitted cluster model. -/
def HubertDiscrete.units (encodeAt : Option ℕ → List ℚ → List (List ℚ))
    (centers : List (List ℚ)) (wav : List ℚ) : List ℕ :=
  (encodeAt (some 7) (padWav padAmount wav)).map (kmeans_predict_one centers)

/-! ### `FeatureExtractor` (networks/hubert/model.py, lines 95-115) -/

/-- One 1-D convolution stage along the time axis with kernel size `k` and
stride `s` (no padding, no bias): output frame `i` is computed from the
`k` input frames starting at `i * s`.  The function `g` abstracts the
learned kernel weights together with the following activation (and, for
stage 0, the group normalization), none of which change the time length. -/
def convStage {α β : Type*} (k s : ℕ) (g : List α → β) (x : List α) : List β :=
  (List.range ((x.length - k) / s + 1)).map (fun i => g ((x.drop (i * s)).take k))

/-- Kernel sizes of the seven convolution stages of `FeatureExtractor`. -/
def kernels : List ℕ := [10, 3, 3, 3, 3, 2, 2]

/-- Strides of the seven convolution stages of `FeatureExtractor`. -/
def strides : List ℕ := [5, 2, 2, 2, 2, 2, 2]

/-- The floor-division output-length formula of one convolution stage. -/
def convOutLen (L k s : ℕ) : ℕ := (L - k) / s + 1

/-- The composed output time-length formula over the seven stages. -/
def featureExtractorLen (N : ℕ) : ℕ :=
  (kernels.zip strides).foldl (fun L ks => convOutLen L ks.1 ks.2) N

/-- Shallow embedding of `FeatureExtractor.forward`: the seven stages
`conv0 (k=10, s=5), conv1..conv3 (k=3, s=2), conv4 (k=3, s=2), conv5,
conv6 (k=2, s=2)` applied in order, each stage's weights and activation
abstracted into `g0 .. g6`. -/
def FeatureExtractor.forward {α : Type*} (g0 g1 g2 g3 g4 g5 g6 : List α → α)
    (x : List α) : List α :=
  convStage 2 2 g6 (convStage 2 2 g5 (convStage 3 2 g4 (convStage 3 2 g3
    (convStage 3 2 g2 (convStage 3 2 g1 (convStage 10 5 g0 x))))))

/-! ### `RecentCheckpointsCallback.on_train_batch_end`
(networks/utils/train_callbacks.py, lines 43-55) -/

/-- The state touched by `RecentCheckpointsCallback`: its
`saved_checkpoints` list and the set of checkpoint files on disk. -/
structure CkptState where
  saved_checkpoints : List String
  disk : List String

/-- `trainer.save_checkpoint(path)`: afterwards the file exists on disk. -/
def insertFile (p : String) (disk : List String) : List String :=
  if p ∈ disk then disk else p :: disk

/-- `if os.path.exists(p): os.remove(p)`. -/
def removeFileIfExists (p : String) (disk : List String) : List String :=
  if p ∈ disk then disk.erase p else disk

/-- Shallow embedding of `RecentCheckpointsCallback.on_train_batch_end`:
every `save_every_steps` global steps, save a checkpoint (append its path
to `saved_checkpoints`, write the file) and, when the list then exceeds
`save_top_k`, pop its first (oldest) entry and delete that file if it
exists. -/
def on_train_batch_end (save_top_k save_every_steps global_step : ℕ)
    (path : String) (st : CkptState) : CkptState :=
  if global_step % save_every_steps = 0 then
    let disk1 := insertFile path st.disk
    let saved1 := st.saved_checkpoints ++ [path]
    if save_top_k < saved1.length then
      match saved1 with
      | [] => { saved_checkpoints := [], disk := disk1 }
      | oldest :: rest =>
        { saved_checkpoints := rest, disk := removeFileIfExists oldest disk1 }
    else { saved_checkpoints := saved1, disk := disk1 }
  else st

end HubertFA

namespace HubertFA

theorem length_mask_row (starts : ℕ → ℕ) (n L seq : ℕ) :
    (mask_row starts n L seq).length = seq := by
  simp [mask_row]

theorem count_le_seq (starts : ℕ → ℕ) (n L seq : ℕ) :
    (mask_row starts n L seq).count true ≤ seq := by
  calc (mask_row starts n L seq).count true ≤ (mask_row starts n L seq).length :=
        List.count_le_length _ _
    _ = seq := length_mask_row starts n L seq

theorem any_span_eq_decide (starts : ℕ → ℕ) (n L j : ℕ) :
    ((List.range n).any fun i => decide (starts i ≤ j) && decide (j < starts i + L)) =
      decide (∃ i, i < n ∧ starts i ≤ j ∧ j < starts i + L) := by
  by_cases h : ∃ i, i < n ∧ starts i ≤ j ∧ j < starts i + L
  · simp only [h, decide_True]
    rw [List.any_eq_true]
    obtain ⟨i, hi, h1, h2⟩ := h
    exact ⟨i, List.mem_range.mpr hi, by simp [h1, h2]⟩
  · simp only [h, decide_False]
    rw [List.any_eq_false]
    intro i hi
    simp only [Bool.and_eq_true, decide_eq_true_eq, not_and]
    intro h1 h2
    exact h ⟨i, List.mem_range.mp hi, h1, h2⟩

theorem mask_row_getD (starts : ℕ → ℕ) (n L seq : ℕ) (j : ℕ) (hj : j < seq) :
    (mask_row starts n L seq).getD j false =
      decide (∃ i, i < n ∧ starts i ≤ j ∧ j < starts i + L) := by
  have : (mask_row starts n L seq).getD j false =
      (List.range n).any (fun i => decide (starts i ≤ j) && decide (j < starts i + L)) := by
    simp [mask_row, List.getD_eq_getElem?_getD, List.getElem?_map, List.getElem?_range, hj]
  rw [this, any_span_eq_decide]

/-- The computed number of spans is never below `min(min_masks, seq // L)`:
either the clamp branch fires (giving `seq // L`) or the `max` with
`min_masks` survives. -/
theorem num_masked_spans_lower (p u : ℚ) (seq L m : ℕ) :
    min m (seq / L) ≤ num_masked_spans p u seq L m := by
  simp only [num_masked_spans]
  split
  · exact min_le_right _ _
  · exact le_trans (min_le_left _ _) (le_max_right _ _)

theorem num_masked_spans_eval1 : num_masked_spans 0 0 3 1 1 = 1 := by
  unfold num_masked_spans num_masked_spans_raw
  norm_num

theorem num_masked_spans_eval2 : num_masked_spans 0 0 3 2 2 = 1 := by
  unfold num_masked_spans num_masked_spans_raw
  norm_num

theorem num_masked_spans_eval3 : num_masked_spans 0 0 4 2 0 = 0 := by
  unfold num_masked_spans num_masked_spans_raw
  norm_num

theorem num_masked_spans_eval4 : num_masked_spans 0 0 5 1 0 = 0 := by
  unfold num_masked_spans num_masked_spans_raw
  norm_num

/-- The computed number of spans never exceeds `seq // L`: the clamp
branch returns it, and the other branch has `n * L ≤ seq`. -/
theorem num_masked_spans_le_div (p u : ℚ) (seq L m : ℕ) (hL : 1 ≤ L) :
    num_masked_spans p u seq L m ≤ seq / L := by
  simp only [num_masked_spans]
  split
  · exact le_refl _
  · next h => exact (Nat.le_div_iff_mul_le (by omega)).mpr (by omega)

theorem div_le_sub_pred (seq L : ℕ) (hL : 1 ≤ L) (hLs : L ≤ seq) :
    seq / L ≤ seq - (L - 1) := by
  have h1 : seq / L * L ≤ seq := Nat.div_mul_le_self seq L
  have h2 : 1 ≤ seq / L := (Nat.one_le_div_iff (by omega)).mpr hLs
  have h3 : (L - 1) ≤ seq / L * (L - 1) := Nat.le_mul_of_pos_left _ h2
  have h4 : seq / L * L = seq / L * 1 + seq / L * (L - 1) := by
    rw [← Nat.mul_add]
    congr 1
    omega
  omega

/-- The `torch.multinomial` over-count failure is unreachable: in the
valid `mask_length` regime the computed span count never exceeds the
`sequence_length - (mask_length - 1)` categories of `uniform_dist`. -/
theorem num_masked_spans_le_categories (p u : ℚ) (seq L m : ℕ)
    (hL : 1 ≤ L) (hLs : L ≤ seq) :
    num_masked_spans p u seq L m ≤ seq - (L - 1) :=
  le_trans (num_masked_spans_le_div p u seq L m hL) (div_le_sub_pred seq L hL hLs)

/-- In the valid `mask_length` regime with a nonzero span count,
`_compute_mask` succeeds with one `mask_row` per batch row. -/
theorem _compute_mask_ok (batch seq L min_masks : ℕ) (p u : ℚ)
    (starts : ℕ → ℕ → ℕ) (hL : 1 ≤ L) (hLs : L ≤ seq)
    (hn : num_masked_spans p u seq L min_masks ≠ 0) :
    _compute_mask batch seq p L min_masks u starts =
      Except.ok ((List.range batch).map (fun b =>
        mask_row (starts b) (num_masked_spans p u seq L min_masks) L seq)) := by
  unfold _compute_mask
  rw [if_neg (by omega), if_neg (by omega), if_neg hn,
    if_neg (not_lt.mpr (num_masked_spans_le_categories p u seq L min_masks hL hLs))]

/-- C1 (amended): for every valid call to `_compute_mask` with
`1 ≤ mask_length ≤ sequence_length` (and the scattered start offsets
distinct and in range, as the multinomial draw guarantees), every row of
the returned mask contains at least `min(min_masks, sequence_length //
mask_length)` fully masked contiguous spans of length `mask_length`, and
the count of `true` positions per row is at most `sequence_length`.  The
original claim's bound `min_masks` fails when
`min_masks * mask_length > sequence_length` (see the counterexample); a
mask is only returned at all when the computed span count is nonzero
(`hn`), since `torch.multinomial` rejects a zero sample count. -/
theorem claim_C1 (batch seq L min_masks : ℕ) (p u : ℚ) (starts : ℕ → ℕ → ℕ)
    (hL : 1 ≤ L) (hLs : L ≤ seq)
    (hn : num_masked_spans p u seq L min_masks ≠ 0)
    (hrange : ∀ b i, i < num_masked_spans p u seq L min_masks → starts b i + L ≤ seq)
    (hinj : ∀ b i j, i < num_masked_spans p u seq L min_masks →
      j < num_masked_spans p u seq L min_masks → starts b i = starts b j → i = j) :
    ∃ rows, _compute_mask batch seq p L min_masks u starts = Except.ok rows ∧
      rows.length = batch ∧
      ∀ row ∈ rows, row.length = seq ∧ row.count true ≤ seq ∧
        ∃ S : Finset ℕ, min min_masks (seq / L) ≤ S.card ∧
          ∀ s ∈ S, spanFullyMasked row s L := by
  refine ⟨(List.range batch).map
      (fun b => mask_row (starts b) (num_masked_spans p u seq L min_masks) L seq),
    _compute_mask_ok batch seq L min_masks p u starts hL hLs hn, by simp, ?_⟩
  · intro row hrow
    obtain ⟨b, hb, rfl⟩ := List.mem_map.mp hrow
    refine ⟨length_mask_row _ _ _ _, count_le_seq _ _ _ _,
      (Finset.range (num_masked_spans p u seq L min_masks)).image (starts b), ?_, ?_⟩
    · have hcard : ((Finset.range (num_masked_spans p u seq L min_masks)).image
          (starts b)).card = num_masked_spans p u seq L min_masks := by
        rw [Finset.card_image_of_injOn (fun i hi j hj hij =>
          hinj b i j (Finset.mem_range.mp hi) (Finset.mem_range.mp hj) hij)]
        exact Finset.card_range _
      rw [hcard]
      exact num_masked_spans_lower p u seq L min_masks
    · intro s hs
      obtain ⟨i, hi, rfl⟩ := Finset.mem_image.mp hs
      have hi' := Finset.mem_range.mp hi
      intro j h1 h2
      have hj : j < seq := lt_of_lt_of_le h2 (hrange b i hi')
      rw [mask_row_getD _ _ _ _ _ hj]
      simp only [decide_eq_true_eq]
      exact ⟨i, hi', h1, h2⟩

/-- C1 witness: the amended theorem applied at
`batch=1, seq=3, mask_prob=0, L=1, min_masks=1, u=0, starts b i = i`. -/
theorem claim_C1_witness :
    ∃ rows, _compute_mask 1 3 0 1 1 0 (fun _ i => i) = Except.ok rows ∧
      rows.length = 1 ∧
      ∀ row ∈ rows, row.length = 3 ∧ row.count true ≤ 3 ∧
        ∃ S : Finset ℕ, min 1 (3 / 1) ≤ S.card ∧ ∀ s ∈ S, spanFullyMasked row s 1 :=
  claim_C1 1 3 1 1 0 0 (fun _ i => i) (by norm_num) (by norm_num)
    (by rw [num_masked_spans_eval1]; omega)
    (fun _ i hi => by rw [num_masked_spans_eval1] at hi; show i + 1 ≤ 3; omega)
    (fun _ _ _ _ _ h => h)

/-- C1 counterexample: at `batch=1, seq=3, mask_prob=0, mask_length=2,
min_masks=2, u=0, all starts 0` (a valid call, `1 ≤ 2 ≤ 3`), the clamp
`num_spans = seq // L = 1` drops below `min_masks = 2`: the single
returned row `[true, true, false]` does not contain 2 fully masked spans
of length 2, refuting the claim as stated. -/
theorem claim_C1_cex :
    _compute_mask 1 3 0 2 2 0 (fun _ _ => 0) = Except.ok [[true, true, false]] ∧
    ¬ ∃ S : Finset ℕ, 2 ≤ S.card ∧ ∀ s ∈ S, spanFullyMasked [true, true, false] s 2 := by
  constructor
  · rw [_compute_mask_ok 1 3 2 2 0 0 (fun _ _ => 0) (by omega) (by omega)
      (by rw [num_masked_spans_eval2]; omega)]
    simp only [num_masked_spans_eval2]
    rfl
  · rintro ⟨S, hcard, hS⟩
    have key : ∀ s ∈ S, s = 0 := by
      intro s hs
      by_contra hne
      have hs1 : 1 ≤ s := Nat.one_le_iff_ne_zero.mpr hne
      have h2 := hS s hs (s + 1) (by omega) (by omega)
      have hfalse : ([true, true, false] : List Bool).getD (s + 1) false = false := by
        rcases s with _ | _ | s
        · omega
        · rfl
        · apply List.getD_eq_default
          simp
      rw [hfalse] at h2
      exact Bool.false_ne_true h2
    have hsub : S ⊆ {0} := fun s hs => Finset.mem_singleton.mpr (key s hs)
    have := Finset.card_le_card hsub
    rw [Finset.card_singleton] at this
    omega



theorem mask_row_eq_spec (starts : ℕ → ℕ) (n L seq : ℕ) :
    mask_row starts n L seq = mask_row_spec starts n L seq := by
  unfold mask_row mask_row_spec
  apply List.map_congr_left
  intro j _
  exact any_span_eq_decide starts n L j

theorem num_masked_spans_eq_spec (p u : ℚ) (seq L m : ℕ) :
    num_masked_spans p u seq L m = num_masked_spans_spec p u seq L m := by
  simp only [num_masked_spans, num_masked_spans_spec, num_masked_spans_raw, gt_iff_lt]
  rw [max_comm]

/-- C2 (amended): `_compute_mask` implements the algorithm the claim
describes — span count `max(min_masks, int(mask_prob * seq / len + u))`
clamped to `seq // len` when it would overshoot, each row the OR of the
contiguous length-`L` spans grown from that row's sampled distinct start
offsets, overlaps collapsing — provided the computed span count is
nonzero (`hn`); when it is zero (possible only with `min_masks = 0` and
`mask_prob * seq / len + u < 1`), the source instead fails inside
`torch.multinomial` (see the counterexample). -/
theorem claim_C2 (batch seq L min_masks : ℕ) (p u : ℚ) (starts : ℕ → ℕ → ℕ)
    (hL : 1 ≤ L) (hLs : L ≤ seq) (hu0 : 0 ≤ u) (hu1 : u < 1)
    (hn : num_masked_spans p u seq L min_masks ≠ 0)
    (hrange : ∀ b i, i < num_masked_spans p u seq L min_masks → starts b i + L ≤ seq)
    (hinj : ∀ b i j, i < num_masked_spans p u seq L min_masks →
      j < num_masked_spans p u seq L min_masks → starts b i = starts b j → i = j) :
    _compute_mask batch seq p L min_masks u starts =
      Except.ok ((List.range batch).map (fun b =>
        mask_row_spec (starts b) (num_masked_spans_spec p u seq L min_masks) L seq)) := by
  rw [_compute_mask_ok batch seq L min_masks p u starts hL hLs hn]
  simp only [mask_row_eq_spec, num_masked_spans_eq_spec]

/-- C2 witness: the amended theorem applied at
`batch=1, seq=3, mask_prob=0, L=1, min_masks=1, u=0, starts b i = i`. -/
theorem claim_C2_witness :
    _compute_mask 1 3 0 1 1 0 (fun _ i => i) =
      Except.ok ((List.range 1).map (fun b =>
        mask_row_spec ((fun _ i => i) b) (num_masked_spans_spec 0 0 3 1 1) 1 3)) :=
  claim_C2 1 3 1 1 0 0 (fun _ i => i) (by norm_num) (by norm_num) le_rfl (by norm_num)
    (by rw [num_masked_spans_eval1]; omega)
    (fun _ i hi => by rw [num_masked_spans_eval1] at hi; show i + 1 ≤ 3; omega)
    (fun _ _ _ _ _ h => h)

/-- C2 counterexample: at `batch=1, seq=4, mask_prob=0, mask_length=2,
min_masks=0, u=0` (a valid call, `1 ≤ 2 ≤ 4`), the span count is
`max(0, int(0 * 4 / 2 + 0)) = 0` and the source fails in
`torch.multinomial` (`cannot sample n_sample <= 0 samples`) instead of
sampling starts and ORing spans into a mask as the claim states. -/
theorem claim_C2_cex :
    _compute_mask 1 4 0 2 0 0 (fun _ _ => 0) =
      Except.error "cannot sample n_sample <= 0 samples" ∧
    ¬ ∃ rows, _compute_mask 1 4 0 2 0 0 (fun _ _ => 0) = Except.ok rows := by
  have h : _compute_mask 1 4 0 2 0 0 (fun _ _ => 0) =
      Except.error "cannot sample n_sample <= 0 samples" := by
    unfold _compute_mask
    rw [if_neg (by omega), if_neg (by omega), if_pos num_masked_spans_eval3]
  refine ⟨h, ?_⟩
  rintro ⟨rows, hr⟩
  rw [h] at hr
  simp at hr

/-- C3 (amended): the two `ValueError`s the spec calls `InvalidArgument`
are raised, before any mask is produced, exactly when `mask_length < 1`
or `mask_length > sequence_length`; within
`1 ≤ mask_length ≤ sequence_length` a mask is returned whenever the
computed span count is nonzero, but when that count is zero — reachable
with `min_masks = 0` whenever `mask_prob * seq / len + u < 1` — the call
instead fails inside `torch.multinomial`
(`cannot sample n_sample <= 0 samples`), so the original claim's "for
every mask_length in [1, sequence_length] no error is raised and a mask
is returned" does not hold. -/
theorem claim_C3 (batch seq L min_masks : ℕ) (p u : ℚ) (starts : ℕ → ℕ → ℕ) :
    ((_compute_mask batch seq p L min_masks u starts =
        Except.error "`mask_length` has to be bigger than 0." ∨
      _compute_mask batch seq p L min_masks u starts =
        Except.error "`mask_length` has to be smaller than `sequence_length`") ↔
      (L < 1 ∨ seq < L)) ∧
    (1 ≤ L → L ≤ seq → num_masked_spans p u seq L min_masks ≠ 0 →
      ∃ rows, _compute_mask batch seq p L min_masks u starts = Except.ok rows) ∧
    (1 ≤ L → L ≤ seq → num_masked_spans p u seq L min_masks = 0 →
      _compute_mask batch seq p L min_masks u starts =
        Except.error "cannot sample n_sample <= 0 samples") := by
  refine ⟨⟨?_, ?_⟩, ?_, ?_⟩
  · intro h
    by_cases h1 : L < 1
    · exact Or.inl h1
    by_cases h2 : seq < L
    · exact Or.inr h2
    exfalso
    unfold _compute_mask at h
    rw [if_neg h1, if_neg h2] at h
    by_cases h3 : num_masked_spans p u seq L min_masks = 0
    · rw [if_pos h3] at h
      rcases h with h | h <;> exact absurd (Except.error.inj h) (by decide)
    · rw [if_neg h3,
        if_neg (not_lt.mpr (num_masked_spans_le_categories p u seq L min_masks
          (by omega) (by omega)))] at h
      rcases h with h | h <;> simp at h
  · intro h
    unfold _compute_mask
    rcases h with h | h
    · rw [if_pos h]
      exact Or.inl rfl
    · by_cases h1 : L < 1
      · rw [if_pos h1]
        exact Or.inl rfl
      · rw [if_neg h1, if_pos h]
        exact Or.inr rfl
  · intro hL hLs hn
    exact ⟨_, _compute_mask_ok batch seq L min_masks p u starts hL hLs hn⟩
  · intro hL hLs hn0
    unfold _compute_mask
    rw [if_neg (by omega), if_neg (by omega), if_pos hn0]

/-- C3 witness: the amended theorem applied at two concrete valid calls,
one with span count `1` (a mask is returned) and one with span count `0`
(the multinomial failure). -/
theorem claim_C3_witness :
    (∃ rows, _compute_mask 1 3 0 1 1 0 (fun _ i => i) = Except.ok rows) ∧
    _compute_mask 2 6 0 3 0 0 (fun _ _ => 0) =
      Except.error "cannot sample n_sample <= 0 samples" :=
  ⟨(claim_C3 1 3 1 1 0 0 (fun _ i => i)).2.1 (by omega) (by omega)
      (by rw [num_masked_spans_eval1]; omega),
   (claim_C3 2 6 3 0 0 0 (fun _ _ => 0)).2.2 (by omega) (by omega)
      (by unfold num_masked_spans num_masked_spans_raw; norm_num)⟩

/-- C3 counterexample: at `batch=1, seq=5, mask_prob=0, mask_length=1,
min_masks=0, u=0` — a valid call with `mask_length ∈ [1, seq]` — no mask
is returned: the zero span count makes `torch.multinomial` fail, refuting
the claim's "for every mask_length in [1, sequence_length] no such error
is raised and a mask is returned". -/
theorem claim_C3_cex :
    _compute_mask 1 5 0 1 0 0 (fun _ _ => 0) =
      Except.error "cannot sample n_sample <= 0 samples" ∧
    ¬ ∃ rows, _compute_mask 1 5 0 1 0 0 (fun _ _ => 0) = Except.ok rows := by
  have h : _compute_mask 1 5 0 1 0 0 (fun _ _ => 0) =
      Except.error "cannot sample n_sample <= 0 samples" := by
    unfold _compute_mask
    rw [if_neg (by omega), if_neg (by omega), if_pos num_masked_spans_eval4]
  refine ⟨h, ?_⟩
  rintro ⟨rows, hr⟩
  rw [h] at hr
  simp at hr


theorem length_runTrace {α : Type*} (layers : List (α → α)) (src : α) :
    (runTrace layers src).length = layers.length + 1 := by
  induction layers generalizing src with
  | nil => rfl
  | cons f rest ih => simp [runTrace, ih]

theorem getD_irrel {α : Type*} (l : List α) (n : ℕ) (d d' : α) (h : n < l.length) :
    l.getD n d = l.getD n d' := by
  simp [List.getD_eq_getElem?_getD, List.getElem?_eq_getElem h]

theorem forward_some_eq_trace {α : Type*} (layers : List (α → α)) (n : ℕ) (src : α)
    (h : n ≤ layers.length) :
    TransformerEncoder.forward layers (some n) src = (runTrace layers src).getD n src := by
  induction layers generalizing n src with
  | nil =>
    have hn : n = 0 := by simpa using h
    subst hn
    rfl
  | cons f rest ih =>
    cases n with
    | zero => rfl
    | succ m =>
      have hm : m ≤ rest.length := by simpa using h
      have step : TransformerEncoder.forward (f :: rest) (some (m + 1)) src =
          TransformerEncoder.forward rest (some m) (f src) := rfl
      rw [step, ih m (f src) hm]
      have hlt : m < (runTrace rest (f src)).length := by
        rw [length_runTrace]; omega
      calc (runTrace rest (f src)).getD m (f src)
          = (runTrace rest (f src)).getD m src := getD_irrel _ _ _ _ hlt
        _ = (runTrace (f :: rest) src).getD (m + 1) src := rfl

theorem forward_none_eq_all {α : Type*} (layers : List (α → α)) (src : α) :
    TransformerEncoder.forward layers none src =
      TransformerEncoder.forward layers (some layers.length) src := by
  simp [TransformerEncoder.forward, List.take_length]

/-- C4 (amended): with `output_layer = n` (`1 ≤ n ≤ 12`) the forward pass
returns exactly the state after the first `n` layers of a full 12-layer
run on the same input, and with `output_layer` omitted it applies all 12
layers.  The original claim's further assertion that the `n = 7` output
is strictly different from the full output is not a consequence of the
code (see the counterexample with identity layers). -/
theorem claim_C4 {α : Type*} (layers : List (α → α)) (src : α) (n : ℕ)
    (hlen : layers.length = 12) (hn1 : 1 ≤ n) (hn2 : n ≤ 12) :
    TransformerEncoder.forward layers (some n) src = (runTrace layers src).getD n src ∧
    TransformerEncoder.forward layers none src = (runTrace layers src).getD 12 src := by
  constructor
  · exact forward_some_eq_trace layers n src (by omega)
  · rw [forward_none_eq_all, hlen]
    exact forward_some_eq_trace layers 12 src (by omega)

/-- C4 witness: the amended theorem applied to twelve successor layers on
`ℕ` with `n = 7` and input `0`. -/
theorem claim_C4_witness :
    TransformerEncoder.forward (List.replicate 12 Nat.succ) (some 7) 0 =
      (runTrace (List.replicate 12 Nat.succ) 0).getD 7 0 ∧
    TransformerEncoder.forward (List.replicate 12 Nat.succ) none 0 =
      (runTrace (List.replicate 12 Nat.succ) 0).getD 12 0 :=
  claim_C4 (List.replicate 12 Nat.succ) 0 7 (by simp) (by omega) (by omega)

/-- C4 counterexample: with twelve identity layers the `output_layer = 7`
result coincides with the full 12-layer output, refuting the claimed
unconditional strict difference — whether the two differ depends on the
layer functions (the learned weights), which the forward code does not
constrain. -/
theorem claim_C4_cex :
    TransformerEncoder.forward (List.replicate 12 (id : ℕ → ℕ)) (some 7) 0 =
      TransformerEncoder.forward (List.replicate 12 (id : ℕ → ℕ)) none 0 := by
  rfl


/-- C5: the evaluation callback's composite metrics use the weights
`0.1, 0.2, 0.3, 0.4` for the four vlabeler edit ratios and `0.5, 0.5`
for the composite; at metric values `0.1, 0.2, 0.3, 0.4` the composite
`vlabeler_loss` equals `0.30`, and with `BoundaryEditRatioWeighted = 0.5`
the `total` equals `0.40`. -/
theorem claim_C5 :
    (∀ r : EvalResult,
      total r = 0.5 * vlabeler_loss r + 0.5 * r.boundaryEditRatioWeighted) ∧
    vlabeler_loss ⟨0, 0.5, 0.1, 0.2, 0.3, 0.4⟩ = 0.30 ∧
    total ⟨0, 0.5, 0.1, 0.2, 0.3, 0.4⟩ = 0.40 := by
  refine ⟨fun r => by unfold total; ring, ?_, ?_⟩ <;> norm_num [vlabeler_loss, total]


/-- C6: a prediction file whose name has no matching reference TextGrid
is skipped by the metric phase: no accumulator update happens for it and
the remaining files are processed exactly as if it were absent (and the
fold is total, so no exception is possible). -/
theorem claim_C6 {α : Type*} (refs : String → List String)
    (update : α → String → String → α) (init : α)
    (pre post : List String) (p : String) (h : refs p = []) :
    metricPhase refs update init (pre ++ p :: post) =
      metricPhase refs update init (pre ++ post) := by
  unfold metricPhase
  rw [List.foldl_append, List.foldl_append, List.foldl_cons, h]

/-- C6 witness: with a reference folder matching only `"b"`, the
prediction list `["a", "b"]` yields the same metric state as `["b"]`. -/
theorem claim_C6_witness :
    metricPhase (fun s => if s = "b" then ["ref/b"] else [])
        (fun n _ _ => n + 1) (0 : ℕ) (["a", "b"]) =
      metricPhase (fun s => if s = "b" then ["ref/b"] else [])
        (fun n _ _ => n + 1) (0 : ℕ) (["b"]) :=
  claim_C6 (fun s => if s = "b" then ["ref/b"] else [])
    (fun n _ _ => n + 1) 0 [] ["b"] "a" (by decide)

/-- C7: `Hubert.encode` applies span masking only in training mode with
the mask flag set: then every masked position's feature vector is
replaced by the learned mask-embedding vector and the boolean mask is
returned as the second component; in inference mode (`training = false`),
regardless of the flag, the features pass through the mask step unchanged
and the returned mask is `none`. -/
theorem claim_C7 {α β : Type*} (frontend : α → List (List (List ℚ)))
    (backend : List (List (List ℚ)) → β) (embed : List ℚ)
    (m : List (List Bool)) (wav : α) :
    (∀ maskFlag, Hubert.encode frontend backend false maskFlag embed m wav =
      (backend (frontend wav), none)) ∧
    Hubert.encode frontend backend true false embed m wav =
      (backend (frontend wav), none) ∧
    Hubert.encode frontend backend true true embed m wav =
      (backend (List.zipWith (applyMaskRow embed) m (frontend wav)), some m) ∧
    ∀ (mrow : List Bool) (xrow : List (List ℚ)) (t : ℕ),
      t < mrow.length → t < xrow.length →
      (applyMaskRow embed mrow xrow).getD t [] =
        (if mrow.getD t false then embed else xrow.getD t []) := by
  refine ⟨fun maskFlag => rfl, rfl, rfl, ?_⟩
  intro mrow xrow t h1 h2
  have hlen : t < (applyMaskRow embed mrow xrow).length := by
    simp only [applyMaskRow, List.length_zipWith]
    omega
  rw [List.getD_eq_getElem _ _ hlen, List.getD_eq_getElem _ _ h1,
    List.getD_eq_getElem _ _ h2]
  simp [applyMaskRow]

/-- C7 witness: the theorem applied to a one-row, two-frame feature map
with mask `[true, false]` and mask embedding `[9]`. -/
theorem claim_C7_witness :
    Hubert.encode (fun _ : Unit => [[[(3 : ℚ)], [4]]]) id false true [9]
        [[true, false]] () = ([[[(3 : ℚ)], [4]]], none) ∧
    Hubert.encode (fun _ : Unit => [[[(3 : ℚ)], [4]]]) id true true [9]
        [[true, false]] () = ([[[(9 : ℚ)], [4]]], some [[true, false]]) ∧
    (applyMaskRow [9] [true, false] [[(3 : ℚ)], [4]]).getD 0 [] =
      (if ([true, false] : List Bool).getD 0 false then [(9 : ℚ)]
        else [[(3 : ℚ)], [4]].getD 0 []) :=
  ⟨(claim_C7 (fun _ : Unit => [[[(3 : ℚ)], [4]]]) id [9] [[true, false]] ()).1 true,
   (claim_C7 (fun _ : Unit => [[[(3 : ℚ)], [4]]]) id [9] [[true, false]] ()).2.2.1,
   (claim_C7 (fun _ : Unit => [[[(3 : ℚ)], [4]]]) id [9] [[true, false]] ()).2.2.2
     [true, false] [[(3 : ℚ)], [4]] 0 (by decide) (by decide)⟩

theorem argmin_idx_lt_length : ∀ d : List ℚ, d ≠ [] → argmin_idx d < d.length
  | [], h => absurd rfl h
  | [_], _ => by simp [argmin_idx]
  | x :: y :: xs, _ => by
    have IH := argmin_idx_lt_length (y :: xs) (by simp)
    simp only [List.length_cons] at IH ⊢
    by_cases hlt : (y :: xs).getD (argmin_idx (y :: xs)) 0 < x
    · simp only [argmin_idx, if_pos hlt]
      omega
    · simp only [argmin_idx, if_neg hlt]
      omega

theorem argmin_idx_le : ∀ (d : List ℚ) (i : ℕ), i < d.length →
    d.getD (argmin_idx d) 0 ≤ d.getD i 0
  | [], i, hi => by simp at hi
  | [x], i, hi => by
    have : i = 0 := by simpa using hi
    subst this
    simp [argmin_idx]
  | x :: y :: xs, i, hi => by
    by_cases hlt : (y :: xs).getD (argmin_idx (y :: xs)) 0 < x
    · simp only [argmin_idx, if_pos hlt, List.getD_cons_succ]
      cases i with
      | zero => simpa using hlt.le
      | succ j =>
        simp only [List.getD_cons_succ]
        refine argmin_idx_le (y :: xs) j ?_
        simp only [List.length_cons] at hi ⊢
        omega
    · simp only [argmin_idx, if_neg hlt, List.getD_cons_zero]
      cases i with
      | zero => simp
      | succ j =>
        simp only [List.getD_cons_succ]
        have h1 : (y :: xs).getD (argmin_idx (y :: xs)) 0 ≤ (y :: xs).getD j 0 := by
          refine argmin_idx_le (y :: xs) j ?_
          simp only [List.length_cons] at hi ⊢
          omega
        exact le_trans (not_lt.mp hlt) h1

theorem getD_map_sqDist (centers : List (List ℚ)) (v : List ℚ) (j : ℕ)
    (h : j < centers.length) :
    (centers.map (sqDist v)).getD j 0 = sqDist v (centers.getD j []) := by
  rw [List.getD_eq_getElem _ _ (by simpa using h), List.getD_eq_getElem _ _ h,
    List.getElem_map]

/-- C8: both unit extractors pad the waveform by `(400 - 320) // 2 = 40`
zeros on each side; `HubertSoft.units` encodes through all layers and
projects each frame (to 256 dimensions, by the shape of `self.proj`);
`HubertDiscrete.units` encodes stopping at layer 7 and assigns each frame
exactly one cluster id, the index of the centroid nearest in (squared,
hence also plain) Euclidean distance. -/
theorem claim_C8 (encodeAt : Option ℕ → List ℚ → List (List ℚ))
    (proj : List ℚ → List ℚ) (centers : List (List ℚ)) (wav : List ℚ)
    (hproj : ∀ v, (proj v).length = 256) (hc : centers ≠ []) :
    padAmount = 40 ∧
    padWav padAmount wav = List.replicate 40 0 ++ wav ++ List.replicate 40 0 ∧
    HubertSoft.units encodeAt proj wav =
      (encodeAt none (padWav padAmount wav)).map proj ∧
    (∀ frame ∈ HubertSoft.units encodeAt proj wav, frame.length = 256) ∧
    HubertDiscrete.units encodeAt centers wav =
      (encodeAt (some 7) (padWav padAmount wav)).map (kmeans_predict_one centers) ∧
    (HubertDiscrete.units encodeAt centers wav).length =
      (encodeAt (some 7) (padWav padAmount wav)).length ∧
    ∀ frame : List ℚ, kmeans_predict_one centers frame < centers.length ∧
      ∀ i, i < centers.length →
        sqDist frame (centers.getD (kmeans_predict_one centers frame) []) ≤
          sqDist frame (centers.getD i []) := by
  refine ⟨rfl, rfl, rfl, ?_, rfl, by simp [HubertDiscrete.units], ?_⟩
  · intro frame hf
    obtain ⟨v, _, rfl⟩ := List.mem_map.mp hf
    exact hproj v
  · intro frame
    have hne : centers.map (sqDist frame) ≠ [] := by
      simpa using hc
    have hlt := argmin_idx_lt_length _ hne
    rw [List.length_map] at hlt
    refine ⟨hlt, ?_⟩
    intro i hi
    have h := argmin_idx_le (centers.map (sqDist frame)) i (by simpa using hi)
    rw [getD_map_sqDist centers frame _ hlt, getD_map_sqDist centers frame i hi] at h
    exact h

/-- C8 witness: the theorem applied to a one-frame encoder, a projection
to 256 zeros and the two centroids `[0]` and `[5]`, checking the nearest
centroid of the frame `[4]`. -/
theorem claim_C8_witness :
    padAmount = 40 ∧
    kmeans_predict_one [[(0 : ℚ)], [5]] [4] < 2 ∧
    sqDist [4] ([[(0 : ℚ)], [5]].getD (kmeans_predict_one [[(0 : ℚ)], [5]] [4]) []) ≤
      sqDist [4] ([[(0 : ℚ)], [5]].getD 1 []) :=
  ⟨(claim_C8 (fun _ _ => [[(0 : ℚ)]]) (fun _ => List.replicate 256 0)
      [[(0 : ℚ)], [5]] [] (fun _ => List.length_replicate _ _) (by simp)).1,
   ((claim_C8 (fun _ _ => [[(0 : ℚ)]]) (fun _ => List.replicate 256 0)
      [[(0 : ℚ)], [5]] [] (fun _ => List.length_replicate _ _) (by simp)).2.2.2.2.2.2 [4]).1,
   ((claim_C8 (fun _ _ => [[(0 : ℚ)]]) (fun _ => List.replicate 256 0)
      [[(0 : ℚ)], [5]] [] (fun _ => List.length_replicate _ _) (by simp)).2.2.2.2.2.2 [4]).2 1
     (by simp)⟩

/-- C9: the time-length of `FeatureExtractor.forward` is a function of
the input length alone and equals the composition, over the seven stages
in order, of the floor-division output-length formula with kernels
`[10, 3, 3, 3, 3, 2, 2]` and strides `[5, 2, 2, 2, 2, 2, 2]`. -/
theorem claim_C9 {α : Type*} (g0 g1 g2 g3 g4 g5 g6 : List α → α) (x : List α) :
    (FeatureExtractor.forward g0 g1 g2 g3 g4 g5 g6 x).length =
      featureExtractorLen x.length := by
  simp [FeatureExtractor.forward, featureExtractorLen, convStage, convOutLen,
    kernels, strides]

theorem on_train_batch_end_overflow (k every step : ℕ) (path : String)
    (saved disk : List String) (hstep : step % every = 0)
    (hover : k < saved.length + 1) :
    on_train_batch_end k every step path ⟨saved, disk⟩ =
      ⟨(saved ++ [path]).tail,
        removeFileIfExists ((saved ++ [path]).headD path)
          (insertFile path disk)⟩ := by
  unfold on_train_batch_end
  rw [if_pos hstep]
  have hlen : (saved ++ [path]).length = saved.length + 1 := by simp
  rw [if_pos (by rw [hlen]; exact hover)]
  cases saved with
  | nil => rfl
  | cons a l => rfl

theorem on_train_batch_end_fits (k every step : ℕ) (path : String)
    (saved disk : List String) (hstep : step % every = 0)
    (hfit : saved.length + 1 ≤ k) :
    on_train_batch_end k every step path ⟨saved, disk⟩ =
      ⟨saved ++ [path], insertFile path disk⟩ := by
  unfold on_train_batch_end
  rw [if_pos hstep]
  have hlen : (saved ++ [path]).length = saved.length + 1 := by simp
  rw [if_neg (by rw [hlen]; omega)]

theorem on_train_batch_end_skip (k every step : ℕ) (path : String)
    (st : CkptState) (hstep : step % every ≠ 0) :
    on_train_batch_end k every step path st = st := by
  unfold on_train_batch_end
  rw [if_neg hstep]

/-- C10: after every invocation of `on_train_batch_end` starting from a
state with at most `save_top_k` saved checkpoints, the list still has at
most `save_top_k` entries; when a checkpoint is saved into a full list,
exactly the single oldest entry is dropped (FIFO) and its file removed
from disk if present, and when the list is not full nothing is pruned. -/
theorem claim_C10 (k every step : ℕ) (path : String) (st : CkptState)
    (h : st.saved_checkpoints.length ≤ k) :
    ((on_train_batch_end k every step path st).saved_checkpoints.length ≤ k) ∧
    (step % every = 0 → st.saved_checkpoints.length = k →
      (on_train_batch_end k every step path st).saved_checkpoints =
        (st.saved_checkpoints ++ [path]).tail ∧
      (on_train_batch_end k every step path st).disk =
        removeFileIfExists ((st.saved_checkpoints ++ [path]).headD path)
          (insertFile path st.disk)) ∧
    (step % every = 0 → st.saved_checkpoints.length < k →
      (on_train_batch_end k every step path st).saved_checkpoints =
        st.saved_checkpoints ++ [path] ∧
      (on_train_batch_end k every step path st).disk =
        insertFile path st.disk) := by
  obtain ⟨saved, disk⟩ := st
  replace h : saved.length ≤ k := h
  refine ⟨?_, ?_, ?_⟩
  · by_cases hstep : step % every = 0
    · by_cases hover : k < saved.length + 1
      · rw [on_train_batch_end_overflow k every step path saved disk hstep hover]
        show ((saved ++ [path]).tail).length ≤ k
        simp only [List.length_tail, List.length_append, List.length_cons,
          List.length_nil]
        omega
      · rw [on_train_batch_end_fits k every step path saved disk hstep (by omega)]
        show (saved ++ [path]).length ≤ k
        simp only [List.length_append, List.length_cons, List.length_nil]
        omega
    · rw [on_train_batch_end_skip k every step path _ hstep]
      exact h
  · intro hstep hfull
    replace hfull : saved.length = k := hfull
    rw [on_train_batch_end_overflow k every step path saved disk hstep (by omega)]
    exact ⟨rfl, rfl⟩
  · intro hstep hlt
    replace hlt : saved.length < k := hlt
    rw [on_train_batch_end_fits k every step path saved disk hstep (by omega)]
    exact ⟨rfl, rfl⟩

/-- C10 witness: the theorem applied at `save_top_k = 1`,
`save_every_steps = 2`, `global_step = 4`, with one checkpoint `"a"`
already saved and on disk and a new checkpoint `"b"`. -/
theorem claim_C10_witness :
    (on_train_batch_end 1 2 4 "b" ⟨["a"], ["a"]⟩).saved_checkpoints.length ≤ 1 ∧
    (on_train_batch_end 1 2 4 "b" ⟨["a"], ["a"]⟩).saved_checkpoints =
      (["a"] ++ ["b"]).tail ∧
    (on_train_batch_end 1 2 4 "b" ⟨["a"], ["a"]⟩).disk =
      removeFileIfExists ((["a"] ++ ["b"]).headD "b") (insertFile "b" ["a"]) :=
  ⟨(claim_C10 1 2 4 "b" ⟨["a"], ["a"]⟩ (by decide)).1,
   ((claim_C10 1 2 4 "b" ⟨["a"], ["a"]⟩ (by decide)).2.1 (by decide) (by decide)).1,
   ((claim_C10 1 2 4 "b" ⟨["a"], ["a"]⟩ (by decide)).2.1 (by decide) (by decide)).2⟩

end HubertFA
